import Mathlib

/-!
# Shopping-list manager: shallow embedding and verification

This file embeds the data model and state-update logic of a client-side
shopping-list manager (a single React component, `src/src/app/page.tsx`) and
proves properties of its operations: `addItem`, `toggleCompleted`,
`removeItem`, `saveEdit`, plus the load / persist effects that mirror the
collection to a key-value store.

Modelling conventions:
* JavaScript numbers are modelled by `JSNum`: either NaN, one of the two
  infinities, or a finite value represented as a rational.  `Math.floor`,
  `Number.isFinite` and the comparison `x <= 0` are given their JavaScript
  semantics on this type.
* JavaScript strings are Lean `String`s; `String.prototype.trim` is modelled
  by `jsTrim`, which removes leading and trailing whitespace characters.
* The component state (`items`, `error`, the add-form fields, the editing
  session) is an explicit structure `ListState`; every event handler is a
  pure state-transition function.
* `JSON.stringify` / `JSON.parse` are modelled at the level of JSON parse
  trees (`Json`); the load effect is modelled on an abstract stored value
  that records whether the key is absent, holds a string `JSON.parse`
  throws on, or holds text that parses to a JSON value.
-/

/-- A JavaScript number: NaN, ±Infinity, or a finite value (as a rational). -/
inductive JSNum where
  | nan
  | posInf
  | negInf
  | finite (q : ℚ)
deriving DecidableEq, Repr

namespace JSNum

/-- `Number.isFinite(x)`. -/
def isFinite : JSNum → Bool
  | .finite _ => true
  | _ => false

/-- The JavaScript comparison `x <= 0` (false for NaN). -/
def le0 : JSNum → Bool
  | .nan => false
  | .posInf => false
  | .negInf => true
  | .finite q => decide (q ≤ 0)

/-- `Math.floor(x)`: floor of a finite number; NaN and the infinities are
returned unchanged. -/
def jsFloor : JSNum → JSNum
  | .finite q => .finite (Rat.floor q)
  | x => x

end JSNum

/-- `String.prototype.trim` on the underlying character list: drop leading
whitespace, then drop trailing whitespace. -/
def trimChars (l : List Char) : List Char :=
  ((l.dropWhile Char.isWhitespace).reverse.dropWhile Char.isWhitespace).reverse

/-- `String.prototype.trim`. -/
def jsTrim (s : String) : String :=
  ⟨trimChars s.data⟩

/-- A shopping-list item (`type Item` in the source). -/
structure Item where
  id : String
  name : String
  quantity : JSNum
  category : String
  completed : Bool
  createdAt : Int
deriving DecidableEq, Repr

/-- The fixed set of category values offered by the category selector
(`SelectItem value=...` in the source). -/
def CATEGORY_VALUES : List String :=
  ["produce", "dairy", "bakery", "meat", "pantry", "beverages", "snacks",
   "household", "personal-care"]

/-- The component state of `ShoppingListPage`: the collection, the current
error message, the add-form fields, and the editing session. -/
structure ListState where
  items : List Item
  error : Option String
  name : String
  quantity : JSNum
  category : String
  editing : Option Item
deriving DecidableEq, Repr

/-- `resetForm`: clears the add-form fields back to defaults and clears the
error. -/
def resetForm (s : ListState) : ListState :=
  { s with name := "", quantity := .finite 1, category := "produce",
           error := none }

/-- `addItem`, parameterised by the fresh identifier (`safeId()`) and the
current time (`Date.now()`). -/
def addItem (freshId : String) (now : Int) (s : ListState) : ListState :=
  let s := { s with error := none }
  if jsTrim s.name = "" then
    { s with error := some "Please enter an item name." }
  else if !s.quantity.isFinite || s.quantity.le0 then
    { s with error := some "Quantity must be a positive number." }
  else if s.category = "" then
    { s with error := some "Please select a category." }
  else
    let newItem : Item :=
      { id := freshId, name := jsTrim s.name, quantity := s.quantity.jsFloor,
        category := s.category, completed := false, createdAt := now }
    resetForm { s with items := newItem :: s.items }

/-- `toggleCompleted`: flip the completion flag of every item whose id
matches (the state update touches only `items`). -/
def toggleCompleted (id : String) (items : List Item) : List Item :=
  items.map fun it => if it.id = id then { it with completed := !it.completed } else it

/-- `removeItem`: keep the items whose id differs. -/
def removeItem (id : String) (items : List Item) : List Item :=
  items.filter fun it => it.id ≠ id

/-- The partial updates passed to `saveEdit` (`Partial<Item>` restricted to
the fields the edit form produces). -/
structure ItemUpdates where
  name : Option String
  quantity : Option JSNum
  category : Option String

/-- `saveEdit`: validate the merged updates and rewrite the targeted item;
on a validation failure only the error message changes and the editing
session stays open. -/
def saveEdit (u : ItemUpdates) (s : ListState) : ListState :=
  match s.editing with
  | none => s
  | some editing =>
    let nextName := u.name.getD editing.name
    let nextQty := u.quantity.getD editing.quantity
    let nextCat := u.category.getD editing.category
    if jsTrim nextName = "" then
      { s with error := some "Item name cannot be empty." }
    else if !nextQty.isFinite || nextQty.le0 then
      { s with error := some "Quantity must be a positive number." }
    else
      { s with
        items := s.items.map fun it =>
          if it.id = editing.id then
            { it with name := jsTrim nextName, quantity := nextQty.jsFloor,
                      category := nextCat }
          else it,
        editing := none }

/-- `remainingCount`: number of items not yet completed. -/
def remainingCount (items : List Item) : Nat :=
  (items.filter fun i => !i.completed).length

/-- The data-model invariant the specification states for name and
quantity: name non-empty after trimming, quantity an integer ≥ 1. -/
def Item.wfNQ (it : Item) : Prop :=
  jsTrim it.name ≠ "" ∧ ∃ n : ℤ, 1 ≤ n ∧ it.quantity = JSNum.finite (n : ℚ)

/-- The full data-model invariant: additionally the category is drawn from
the fixed set. -/
def Item.wf (it : Item) : Prop :=
  it.wfNQ ∧ it.category ∈ CATEGORY_VALUES

/-! ## Persistence: JSON values, serialization, and the load effect -/

/-- A JSON value (the parse tree of a JSON text).  JSON numbers are always
finite, hence carried as rationals. -/
inductive Json where
  | null
  | bool (b : Bool)
  | num (q : ℚ)
  | str (s : String)
  | arr (elems : List Json)
  | obj (fields : List (String × Json))

/-- `JSON.stringify` on a JavaScript number: NaN and the infinities
serialize as `null`. -/
def encodeJSNum : JSNum → Json
  | .finite q => .num q
  | _ => .null

/-- `JSON.stringify` on one item object, with the fields in the insertion
order of the `Item` object literal. -/
def encodeItem (it : Item) : Json :=
  .obj [("id", .str it.id), ("name", .str it.name),
        ("quantity", encodeJSNum it.quantity), ("category", .str it.category),
        ("completed", .bool it.completed),
        ("createdAt", .num (it.createdAt : ℚ))]

/-- `JSON.stringify(items)` (as a parse tree): the persist effect writes
this value under the fixed key `"shopping-items"`. -/
def encodeItems (items : List Item) : Json :=
  .arr (items.map encodeItem)

/-- Read a JSON value as a string. -/
def asStr : Json → Option String
  | .str s => some s
  | _ => none

/-- Read a JSON value as a number. -/
def asNum : Json → Option ℚ
  | .num q => some q
  | _ => none

/-- Read a JSON value as a boolean. -/
def asBool : Json → Option Bool
  | .bool b => some b
  | _ => none

/-- Read a JSON value as an integer (a JSON number with denominator 1). -/
def asInt : Json → Option Int
  | .num q => if q.den = 1 then some q.num else none
  | _ => none

/-- Look up a field of a JSON object. -/
def getField (fields : List (String × Json)) (k : String) : Option Json :=
  (fields.find? fun p => p.1 = k).map Prod.snd

/-- Read a JSON value as a well-formed `Item` record: an object carrying the
six fields with their expected types. -/
def decodeItem : Json → Option Item
  | .obj fields => do
      let id ← (getField fields "id").bind asStr
      let name ← (getField fields "name").bind asStr
      let qty ← (getField fields "quantity").bind asNum
      let category ← (getField fields "category").bind asStr
      let completed ← (getField fields "completed").bind asBool
      let createdAt ← (getField fields "createdAt").bind asInt
      pure ⟨id, name, .finite qty, category, completed, createdAt⟩
  | _ => none

/-- Read a JSON value as a well-formed array of `Item` records. -/
def decodeItems : Json → Option (List Item)
  | .arr elems => elems.mapM decodeItem
  | _ => none

/-- The value stored under the key `"shopping-items"` at startup, as the
load effect observes it: the key may be absent (`localStorage.getItem`
returns `null`, or the stored text is empty so `if (raw)` skips parsing),
the stored text may be one that `JSON.parse` throws on, or it may parse to
a JSON value `j`. -/
inductive StoredValue where
  | absent
  | unparseable (raw : String)
  | parsed (j : Json)

/-- Result of the load effect: the JavaScript value installed as `items`
(the initial value `[]` unless `setItems` is called with a parsed value),
and the error message, if any. -/
structure LoadResult where
  installed : Json
  error : Option String

/-- The error message shown when the load effect catches an exception. -/
def loadErrorMsg : String := "Failed to load items. Local storage might be unavailable."

/-- The load effect: on an absent key, `items` stays `[]` with no error; if
`JSON.parse` throws, the catch block reports `loadErrorMsg` and `items`
stays `[]`; if parsing succeeds, the parsed value is installed as `items`
unvalidated, with no error. -/
def loadEffect : StoredValue → LoadResult
  | .absent => ⟨.arr [], none⟩
  | .unparseable _ => ⟨.arr [], some loadErrorMsg⟩
  | .parsed j => ⟨j, none⟩

/-- A stored value that does not deserialize to a well-formed array of
`Item` records: either `JSON.parse` throws on it, or it parses to a JSON
value of the wrong shape. -/
def storedMalformed : StoredValue → Prop
  | .absent => False
  | .unparseable _ => True
  | .parsed j => decodeItems j = none

/-! ## Helper lemmas -/

theorem mem_CATEGORY_VALUES_ne_empty : ∀ c ∈ CATEGORY_VALUES, c ≠ "" := by
  decide

theorem dropWhile_dropWhile {α : Type} (p : α → Bool) (l : List α) :
    (l.dropWhile p).dropWhile p = l.dropWhile p := by
  induction l with
  | nil => rfl
  | cons x xs ih => by_cases h : p x <;> simp [List.dropWhile_cons, h, ih]

theorem head?_dropWhile_false {α : Type} (p : α → Bool) (l : List α) :
    ∀ x, (l.dropWhile p).head? = some x → p x = false := by
  induction l with
  | nil => intro x hx; cases hx
  | cons y ys ih =>
    intro x hx
    by_cases h : p y
    · exact ih x (by simpa [List.dropWhile_cons, h] using hx)
    · simp [List.dropWhile_cons, h] at hx
      simpa [← hx] using h

theorem dropWhile_eq_self_of_head? {α : Type} (p : α → Bool) (l : List α)
    (h : ∀ x, l.head? = some x → p x = false) : l.dropWhile p = l := by
  cases l with
  | nil => rfl
  | cons x xs => simp [List.dropWhile_cons, h x rfl]

theorem getLast?_dropWhile {α : Type} (p : α → Bool) (l : List α)
    (h : l.dropWhile p ≠ []) : (l.dropWhile p).getLast? = l.getLast? := by
  induction l with
  | nil => simp at h
  | cons x xs ih =>
    by_cases hx : p x
    · have hxs : xs.dropWhile p ≠ [] := by simpa [List.dropWhile_cons, hx] using h
      have hxsne : xs ≠ [] := by
        intro hnil; rw [hnil] at hxs; exact hxs rfl
      rw [List.dropWhile_cons]
      simp only [hx, if_true]
      rw [ih hxs]
      cases xs with
      | nil => exact absurd rfl hxsne
      | cons y ys => simp [List.getLast?_cons_cons]
    · simp [List.dropWhile_cons, hx]

theorem trimChars_idem (l : List Char) : trimChars (trimChars l) = trimChars l := by
  set p := Char.isWhitespace with hp
  set A := l.dropWhile p with hA
  set B := (A.reverse).dropWhile p with hB
  have htrim : trimChars l = B.reverse := rfl
  by_cases hBnil : B = []
  · rw [htrim, hBnil]; rfl
  · have hhead : ∀ x, (B.reverse).head? = some x → p x = false := by
      intro x hx
      rw [List.head?_reverse] at hx
      rw [hB, getLast?_dropWhile p A.reverse (hB ▸ hBnil)] at hx
      rw [List.getLast?_reverse] at hx
      exact head?_dropWhile_false p l x (hA ▸ hx)
    have h1 : (B.reverse).dropWhile p = B.reverse :=
      dropWhile_eq_self_of_head? p B.reverse hhead
    show trimChars B.reverse = B.reverse
    unfold trimChars
    rw [← hp, h1, List.reverse_reverse, hB, dropWhile_dropWhile]

theorem jsTrim_idem (s : String) : jsTrim (jsTrim s) = jsTrim s :=
  congrArg String.mk (trimChars_idem s.data)

theorem map_eq_self_of {α : Type} (f : α → α) (l : List α)
    (h : ∀ a ∈ l, f a = a) : l.map f = l := by
  induction l with
  | nil => rfl
  | cons x xs ih => simp [h x (by simp), ih fun a ha => h a (by simp [ha])]

/-! ## C1: Add on valid input prepends exactly one normalized item -/

/-- C1: for every collection and every valid input (name non-empty after
trimming, quantity finite and positive, category in the fixed set),
`addItem` produces a collection whose head is one new item with the
trimmed name, the quantity floored to an integer, the given category and
completion flag `false`, and whose tail is the previous collection
unchanged. -/
theorem addItem_valid_prepends (freshId : String) (now : Int) (s : ListState)
    (q : ℚ) (hname : jsTrim s.name ≠ "")
    (hq : s.quantity = .finite q) (hqpos : 0 < q)
    (hcat : s.category ∈ CATEGORY_VALUES) :
    (addItem freshId now s).items =
      { id := freshId, name := jsTrim s.name,
        quantity := .finite (q.floor : ℚ), category := s.category,
        completed := false, createdAt := now } :: s.items := by
  have hcat' : s.category ≠ "" := mem_CATEGORY_VALUES_ne_empty _ hcat
  have hle : ¬ (q ≤ 0) := not_le.mpr hqpos
  simp [addItem, hname, hq, JSNum.isFinite, JSNum.le0, JSNum.jsFloor, hle,
    hcat', resetForm]

/-- Witness for C1: adding `"  Milk "` with quantity 5/2 and category
`"dairy"` to the empty collection yields exactly one item named `"Milk"`
with quantity 2. -/
theorem addItem_valid_prepends_witness :
    (addItem "i1" 100 ⟨[], none, "  Milk ", .finite (mkRat 5 2), "dairy", none⟩).items
      = [⟨"i1", "Milk", .finite 2, "dairy", false, 100⟩] := by
  have h := addItem_valid_prepends "i1" 100
    ⟨[], none, "  Milk ", .finite (mkRat 5 2), "dairy", none⟩ (mkRat 5 2)
    (by decide) rfl (by decide) (by decide)
  rw [h]; decide

/-! ## C3: Add with an empty or whitespace-only name -/

/-- C3: for every collection, `addItem` with a name that is empty after
trimming (empty or whitespace-only) leaves the collection unchanged and
produces the name-required error message. -/
theorem addItem_empty_name (freshId : String) (now : Int) (s : ListState)
    (h : jsTrim s.name = "") :
    (addItem freshId now s).items = s.items ∧
    (addItem freshId now s).error = some "Please enter an item name." := by
  simp [addItem, h]

/-- Witness for C3: a whitespace-only name is rejected and the collection
is untouched. -/
theorem addItem_empty_name_witness :
    (addItem "i1" 0 ⟨[⟨"a", "Milk", .finite 1, "dairy", false, 0⟩], none,
        "   ", .finite 1, "produce", none⟩).items
      = [⟨"a", "Milk", .finite 1, "dairy", false, 0⟩] ∧
    (addItem "i1" 0 ⟨[⟨"a", "Milk", .finite 1, "dairy", false, 0⟩], none,
        "   ", .finite 1, "produce", none⟩).error
      = some "Please enter an item name." :=
  addItem_empty_name "i1" 0
    ⟨[⟨"a", "Milk", .finite 1, "dairy", false, 0⟩], none,
      "   ", .finite 1, "produce", none⟩ (by decide)

/-! ## C4: Add with a non-positive or non-finite quantity -/

/-- C4 counterexample: when the name is also invalid, `addItem` with a
negative quantity reports the name error, not the quantity error (the name
check runs first), so the claim as stated — a quantity error for every
collection and every invalid quantity — fails. -/
theorem addItem_quantity_error_counterexample :
    JSNum.le0 (.finite (mkRat (-3) 1)) = true ∧
    (addItem "i1" 0 ⟨[], none, " ", .finite (mkRat (-3) 1), "produce", none⟩).error
      = some "Please enter an item name." ∧
    (addItem "i1" 0 ⟨[], none, " ", .finite (mkRat (-3) 1), "produce", none⟩).error
      ≠ some "Quantity must be a positive number." := by
  decide

/-- C4 as amended: for every collection, `addItem` with a quantity that is
non-finite or `<= 0` leaves the collection unchanged, and — provided the
name passes its (earlier) check — produces the quantity error message. -/
theorem addItem_invalid_quantity (freshId : String) (now : Int) (s : ListState)
    (h : s.quantity.isFinite = false ∨ s.quantity.le0 = true) :
    (addItem freshId now s).items = s.items ∧
    (jsTrim s.name ≠ "" →
      (addItem freshId now s).error = some "Quantity must be a positive number.") := by
  by_cases hn : jsTrim s.name = ""
  · refine ⟨?_, fun hc => absurd hn hc⟩
    simp [addItem, hn]
  · have hb : (!s.quantity.isFinite || s.quantity.le0) = true := by
      rcases h with h | h <;> simp [h]
    constructor
    · simp [addItem, hn, hb]
    · intro _; simp [addItem, hn, hb]

/-- Witness for C4 (amended): a NaN quantity with a valid name yields the
quantity error and an unchanged collection. -/
theorem addItem_invalid_quantity_witness :
    (addItem "i1" 0 ⟨[], none, "Milk", JSNum.nan, "produce", none⟩).items = [] ∧
    (addItem "i1" 0 ⟨[], none, "Milk", JSNum.nan, "produce", none⟩).error
      = some "Quantity must be a positive number." := by
  have h := addItem_invalid_quantity "i1" 0
    ⟨[], none, "Milk", JSNum.nan, "produce", none⟩ (Or.inl rfl)
  exact ⟨h.1, h.2 (by decide)⟩

/-! ## C5: Toggle twice is the identity; Toggle of an unknown id is a no-op -/

/-- C5: for every collection and every id, applying `toggleCompleted` twice
yields the original collection; and if no item carries the id,
`toggleCompleted` leaves the collection unchanged. -/
theorem toggleCompleted_twice_and_unknown :
    (∀ (id : String) (items : List Item),
        toggleCompleted id (toggleCompleted id items) = items) ∧
    (∀ (id : String) (items : List Item), (∀ it ∈ items, it.id ≠ id) →
        toggleCompleted id items = items) := by
  constructor
  · intro id items
    induction items with
    | nil => rfl
    | cons x xs ih =>
      obtain ⟨xid, xname, xq, xcat, xcomp, xcr⟩ := x
      simp only [toggleCompleted, List.map_cons] at ih ⊢
      by_cases h : xid = id <;> simp [h, ih]
  · intro id items h
    exact map_eq_self_of _ items fun a ha => by simp [h a ha]

/-- Witness for C5: toggling a present id twice restores the collection,
and toggling an id nobody carries changes nothing. -/
theorem toggleCompleted_twice_and_unknown_witness :
    toggleCompleted "a" (toggleCompleted "a"
        [⟨"a", "Milk", .finite 2, "dairy", false, 0⟩,
         ⟨"b", "Eggs", .finite 12, "dairy", true, 1⟩])
      = [⟨"a", "Milk", .finite 2, "dairy", false, 0⟩,
         ⟨"b", "Eggs", .finite 12, "dairy", true, 1⟩] ∧
    toggleCompleted "z" [⟨"a", "Milk", .finite 2, "dairy", false, 0⟩]
      = [⟨"a", "Milk", .finite 2, "dairy", false, 0⟩] :=
  ⟨toggleCompleted_twice_and_unknown.1 "a" _,
   toggleCompleted_twice_and_unknown.2 "z"
     [⟨"a", "Milk", .finite 2, "dairy", false, 0⟩] (by decide)⟩

/-! ## C6: Remove deletes exactly the matching item -/

theorem split_nodup_id_ne {l1 l2 : List Item} {x : Item}
    (hnodup : ((l1 ++ x :: l2).map Item.id).Nodup) :
    (∀ y ∈ l1, y.id ≠ x.id) ∧ (∀ y ∈ l2, y.id ≠ x.id) := by
  rw [List.map_append, List.map_cons] at hnodup
  rw [List.nodup_append] at hnodup
  obtain ⟨-, hxs, hdisj⟩ := hnodup
  constructor
  · intro y hy heq
    exact hdisj (List.mem_map_of_mem Item.id hy) (by simp [heq])
  · intro y hy heq
    rw [List.nodup_cons] at hxs
    exact hxs.1 (heq ▸ List.mem_map_of_mem Item.id hy)

/-- C6: in a collection with unique identifiers, `removeItem` of a present
id deletes exactly that item (the remaining items keep their relative
order and the length drops by one); `removeItem` of an id nobody carries
leaves the collection unchanged. -/
theorem removeItem_spec :
    (∀ (id : String) (l1 l2 : List Item) (x : Item), x.id = id →
      ((l1 ++ x :: l2).map Item.id).Nodup →
      removeItem id (l1 ++ x :: l2) = l1 ++ l2 ∧
      (removeItem id (l1 ++ x :: l2)).length = (l1 ++ x :: l2).length - 1) ∧
    (∀ (id : String) (items : List Item), (∀ it ∈ items, it.id ≠ id) →
      removeItem id items = items) := by
  constructor
  · intro id l1 l2 x hx hnodup
    obtain ⟨h1, h2⟩ := split_nodup_id_ne hnodup
    have heq : removeItem id (l1 ++ x :: l2) = l1 ++ l2 := by
      unfold removeItem
      rw [List.filter_append, List.filter_cons]
      have hxid : ¬ (x.id ≠ id) := by simp [hx]
      simp only [decide_eq_true_eq] at *
      rw [if_neg (by simpa using hxid)]
      rw [List.filter_eq_self.mpr fun a ha => by simpa [hx] using h1 a ha,
          List.filter_eq_self.mpr fun a ha => by simpa [hx] using h2 a ha]
    refine ⟨heq, ?_⟩
    rw [heq]
    simp [Nat.add_assoc]
  · intro id items h
    unfold removeItem
    exact List.filter_eq_self.mpr fun a ha => by simpa using h a ha

/-- Witness for C6: removing the id `"b"` from a three-item collection with
distinct ids deletes exactly the middle item; removing `"z"` changes
nothing. -/
theorem removeItem_spec_witness :
    removeItem "b" [⟨"a", "Milk", .finite 2, "dairy", false, 0⟩,
        ⟨"b", "Eggs", .finite 12, "dairy", false, 1⟩,
        ⟨"c", "Bread", .finite 1, "bakery", true, 2⟩]
      = [⟨"a", "Milk", .finite 2, "dairy", false, 0⟩,
         ⟨"c", "Bread", .finite 1, "bakery", true, 2⟩] ∧
    removeItem "z" [⟨"a", "Milk", .finite 2, "dairy", false, 0⟩]
      = [⟨"a", "Milk", .finite 2, "dairy", false, 0⟩] :=
  ⟨(removeItem_spec.1 "b" [⟨"a", "Milk", .finite 2, "dairy", false, 0⟩]
      [⟨"c", "Bread", .finite 1, "bakery", true, 2⟩]
      ⟨"b", "Eggs", .finite 12, "dairy", false, 1⟩ rfl (by decide)).1,
   removeItem_spec.2 "z" [⟨"a", "Milk", .finite 2, "dairy", false, 0⟩]
     (by decide)⟩

/-! ## C7: Edit updates exactly the targeted item; invalid edits change nothing -/

/-- C7: in a collection with unique identifiers, editing an item of the
collection with a valid name and quantity rewrites exactly the targeted
item (all other items, the order and the length are unchanged) and closes
the edit session; an edit whose merged name is empty after trimming or
whose merged quantity is non-finite or `<= 0` leaves the entire collection
unchanged, surfaces an error, and keeps the edit session open. -/
theorem saveEdit_frame (u : ItemUpdates) (s : ListState) (e x : Item)
    (l1 l2 : List Item)
    (hed : s.editing = some e)
    (hitems : s.items = l1 ++ x :: l2)
    (hx : x.id = e.id)
    (hnodup : (s.items.map Item.id).Nodup) :
    (∀ q : ℚ, jsTrim (u.name.getD e.name) ≠ "" →
      u.quantity.getD e.quantity = .finite q → 0 < q →
      (saveEdit u s).items =
        l1 ++ { x with name := jsTrim (u.name.getD e.name),
                       quantity := .finite (q.floor : ℚ),
                       category := u.category.getD e.category } :: l2 ∧
      (saveEdit u s).editing = none) ∧
    ((jsTrim (u.name.getD e.name) = "" ∨
        (u.quantity.getD e.quantity).isFinite = false ∨
        (u.quantity.getD e.quantity).le0 = true) →
      (saveEdit u s).items = s.items ∧
      ((saveEdit u s).error).isSome ∧
      (saveEdit u s).editing = s.editing) := by
  rw [hitems] at hnodup
  obtain ⟨h1, h2⟩ := split_nodup_id_ne hnodup
  constructor
  · intro q hname hq hqpos
    have hle : ¬ (q ≤ 0) := not_le.mpr hqpos
    constructor
    · simp only [saveEdit, hed, hname, hq, JSNum.isFinite, JSNum.le0, hle,
        if_false, decide_eq_true_eq, Bool.not_true, Bool.false_or,
        if_neg hname]
      simp only [hitems, List.map_append, List.map_cons, hx, if_pos rfl,
        decide_False, Bool.or_false, Bool.not_true, if_false]
      rw [map_eq_self_of _ l1 fun a ha => by simp [hx ▸ h1 a ha],
          map_eq_self_of _ l2 fun a ha => by simp [hx ▸ h2 a ha]]
      simp [JSNum.jsFloor]
    · simp [saveEdit, hed, hname, hq, JSNum.isFinite, JSNum.le0, hle]
  · intro hbad
    by_cases hn : jsTrim (u.name.getD e.name) = ""
    · refine ⟨?_, ?_, ?_⟩ <;> simp [saveEdit, hed, hn]
    · have hb : (!(u.quantity.getD e.quantity).isFinite
          || (u.quantity.getD e.quantity).le0) = true := by
        rcases hbad with h | h | h
        · exact absurd h hn
        · simp [h]
        · simp [h]
      refine ⟨?_, ?_, ?_⟩ <;> simp [saveEdit, hed, hn, hb]

/-- Witness for C7 (valid case): editing the first of two items replaces
exactly it, with the other item, the order and the length untouched. -/
theorem saveEdit_frame_witness :
    (saveEdit ⟨some " Bread ", some (.finite (mkRat 7 2)), some "bakery"⟩
        ⟨[⟨"a", "Milk", .finite 2, "dairy", false, 0⟩,
          ⟨"b", "Eggs", .finite 12, "dairy", true, 1⟩], none, "",
         .finite 1, "produce",
         some ⟨"a", "Milk", .finite 2, "dairy", false, 0⟩⟩).items
      = [⟨"a", "Bread", .finite 3, "bakery", false, 0⟩,
         ⟨"b", "Eggs", .finite 12, "dairy", true, 1⟩] ∧
    (saveEdit ⟨some " Bread ", some (.finite (mkRat 7 2)), some "bakery"⟩
        ⟨[⟨"a", "Milk", .finite 2, "dairy", false, 0⟩,
          ⟨"b", "Eggs", .finite 12, "dairy", true, 1⟩], none, "",
         .finite 1, "produce",
         some ⟨"a", "Milk", .finite 2, "dairy", false, 0⟩⟩).editing = none := by
  have h := (saveEdit_frame
    ⟨some " Bread ", some (.finite (mkRat 7 2)), some "bakery"⟩
    ⟨[⟨"a", "Milk", .finite 2, "dairy", false, 0⟩,
      ⟨"b", "Eggs", .finite 12, "dairy", true, 1⟩], none, "",
     .finite 1, "produce",
     some ⟨"a", "Milk", .finite 2, "dairy", false, 0⟩⟩
    ⟨"a", "Milk", .finite 2, "dairy", false, 0⟩
    ⟨"a", "Milk", .finite 2, "dairy", false, 0⟩
    [] [⟨"b", "Eggs", .finite 12, "dairy", true, 1⟩]
    rfl rfl rfl (by decide)).1 (mkRat 7 2) (by decide) rfl (by decide)
  exact ⟨by rw [h.1]; decide, h.2⟩

/-! ## C10: a successful Edit trims the name and floors the quantity -/

/-- C10: a successful edit applies the same normalization as Add: every
item of the resulting collection carrying the edited id has the merged
name trimmed and the merged quantity floored to an integer. -/
theorem saveEdit_normalizes (u : ItemUpdates) (s : ListState) (e : Item)
    (q : ℚ) (hed : s.editing = some e)
    (hname : jsTrim (u.name.getD e.name) ≠ "")
    (hq : u.quantity.getD e.quantity = .finite q) (hqpos : 0 < q) :
    ∀ it ∈ (saveEdit u s).items, it.id = e.id →
      it.name = jsTrim (u.name.getD e.name) ∧
      it.quantity = JSNum.finite (q.floor : ℚ) := by
  intro it hmem hid
  have hle : ¬ (q ≤ 0) := not_le.mpr hqpos
  have hitems : (saveEdit u s).items = s.items.map fun y =>
      if y.id = e.id then
        { y with name := jsTrim (u.name.getD e.name),
                 quantity := JSNum.finite (q.floor : ℚ),
                 category := u.category.getD e.category }
      else y := by
    simp [saveEdit, hed, hname, hq, JSNum.isFinite, JSNum.le0, hle,
      JSNum.jsFloor]
  rw [hitems] at hmem
  obtain ⟨y, hy, hcase⟩ := List.mem_map.mp hmem
  by_cases h : y.id = e.id
  · rw [if_pos h] at hcase
    rw [← hcase]
    exact ⟨rfl, rfl⟩
  · rw [if_neg h] at hcase
    exact absurd (hcase ▸ hid) h

/-- Witness for C10: the edited item ends up with the trimmed name and the
floored quantity. -/
theorem saveEdit_normalizes_witness :
    (⟨"a", "Bread", .finite 3, "bakery", false, 0⟩ : Item).name
      = jsTrim " Bread " ∧
    (⟨"a", "Bread", .finite 3, "bakery", false, 0⟩ : Item).quantity
      = JSNum.finite (((mkRat 7 2).floor : ℤ) : ℚ) :=
  saveEdit_normalizes ⟨some " Bread ", some (.finite (mkRat 7 2)), some "bakery"⟩
    ⟨[⟨"a", "Milk", .finite 2, "dairy", false, 0⟩], none, "",
     .finite 1, "produce", some ⟨"a", "Milk", .finite 2, "dairy", false, 0⟩⟩
    ⟨"a", "Milk", .finite 2, "dairy", false, 0⟩ (mkRat 7 2)
    rfl (by decide) rfl (by decide)
    ⟨"a", "Bread", .finite 3, "bakery", false, 0⟩ (by decide) rfl

/-! ## C2: operations and the data-model invariant -/

theorem ratFloor_intCast (n : ℤ) : Rat.floor ((n : ℚ)) = n := by
  have h : Rat.floor ((n : ℚ)) = ⌊(n : ℚ)⌋ := rfl
  rw [h, Int.floor_intCast]

/-- C2 counterexample: the quantity 1/2 is finite and positive, so Add's
validation accepts it, yet the stored floored quantity is 0, violating the
invariant `quantity ≥ 1`. -/
theorem add_fractional_quantity_counterexample :
    (JSNum.isFinite (.finite (mkRat 1 2)) = true ∧
     JSNum.le0 (.finite (mkRat 1 2)) = false) ∧
    (addItem "i1" 0 ⟨[], none, "Apple", .finite (mkRat 1 2), "produce",
        none⟩).items
      = [⟨"i1", "Apple", .finite 0, "produce", false, 0⟩] ∧
    ¬ Item.wfNQ ⟨"i1", "Apple", .finite 0, "produce", false, 0⟩ := by
  refine ⟨by decide, by decide, ?_⟩
  rintro ⟨-, n, hn, heq⟩
  have h0 : (0 : ℚ) = (n : ℚ) := by injection heq
  have hn0 : n = 0 := by exact_mod_cast h0.symm
  omega

theorem valid_quantity_floor {v : JSNum}
    (hfin : v.isFinite = true) (hle : v.le0 = false)
    (hint : ∀ q : ℚ, v = .finite q → ∃ n : ℤ, q = (n : ℚ)) :
    ∃ n : ℤ, 1 ≤ n ∧ v.jsFloor = JSNum.finite (n : ℚ) := by
  cases v with
  | finite q =>
    obtain ⟨n, rfl⟩ := hint q rfl
    have hq : ¬ ((n : ℚ) ≤ 0) := by simpa [JSNum.le0] using hle
    have hn : 0 < n := by exact_mod_cast not_le.mp hq
    exact ⟨n, by omega, by simp [JSNum.jsFloor, ratFloor_intCast]⟩
  | nan => simp [JSNum.isFinite] at hfin
  | posInf => simp [JSNum.isFinite] at hfin
  | negInf => simp [JSNum.isFinite] at hfin

/-- C2 as amended: Toggle and Remove preserve the invariant (name
non-empty after trimming, quantity an integer ≥ 1) unconditionally; Add
and Edit preserve it provided the submitted quantity — when finite — is
integral, in which case validation (finite and not `<= 0`) forces the
stored floored quantity to be ≥ 1.  (Quantities reaching the handlers
through the UI are integral, being produced by `parseInt`; a fractional
quantity in (0,1) would pass validation yet store 0.) -/
theorem operations_preserve_invariant :
    (∀ (id : String) (items : List Item), (∀ it ∈ items, it.wfNQ) →
        ∀ it ∈ toggleCompleted id items, it.wfNQ) ∧
    (∀ (id : String) (items : List Item), (∀ it ∈ items, it.wfNQ) →
        ∀ it ∈ removeItem id items, it.wfNQ) ∧
    (∀ (freshId : String) (now : Int) (s : ListState),
        (∀ it ∈ s.items, it.wfNQ) →
        (∀ q : ℚ, s.quantity = .finite q → ∃ n : ℤ, q = (n : ℚ)) →
        ∀ it ∈ (addItem freshId now s).items, it.wfNQ) ∧
    (∀ (u : ItemUpdates) (s : ListState),
        (∀ it ∈ s.items, it.wfNQ) →
        (∀ e : Item, s.editing = some e →
          ∀ q : ℚ, u.quantity.getD e.quantity = .finite q →
            ∃ n : ℤ, q = (n : ℚ)) →
        ∀ it ∈ (saveEdit u s).items, it.wfNQ) := by
  refine ⟨?_, ?_, ?_, ?_⟩
  · intro id items h it hit
    obtain ⟨y, hy, rfl⟩ := List.mem_map.mp hit
    obtain ⟨h1, n, hn, heq⟩ := h y hy
    by_cases hid : y.id = id
    · simp only [hid, if_pos rfl]
      exact ⟨h1, n, hn, heq⟩
    · simp only [if_neg hid]
      exact ⟨h1, n, hn, heq⟩
  · intro id items h it hit
    exact h it (List.mem_of_mem_filter hit)
  · intro freshId now s h hint it hit
    by_cases hn : jsTrim s.name = ""
    · rw [show (addItem freshId now s).items = s.items by simp [addItem, hn]]
        at hit
      exact h it hit
    · by_cases hq : (!s.quantity.isFinite || s.quantity.le0) = true
      · rw [show (addItem freshId now s).items = s.items by
          simp [addItem, hn, hq]] at hit
        exact h it hit
      · by_cases hc : s.category = ""
        · rw [show (addItem freshId now s).items = s.items by
            simp [addItem, hn, hq, hc]] at hit
          exact h it hit
        · have hfin : s.quantity.isFinite = true := by
            cases hf : s.quantity.isFinite
            · exact absurd (by simp [hf]) hq
            · rfl
          have hle : s.quantity.le0 = false := by
            cases hl : s.quantity.le0
            · rfl
            · exact absurd (by simp [hl]) hq
          obtain ⟨n, hn1, hfl⟩ := valid_quantity_floor hfin hle hint
          have hitems : (addItem freshId now s).items =
              { id := freshId, name := jsTrim s.name,
                quantity := s.quantity.jsFloor, category := s.category,
                completed := false, createdAt := now } :: s.items := by
            simp [addItem, hn, hq, hc, resetForm]
          rw [hitems] at hit
          rcases List.mem_cons.mp hit with rfl | hit
          · exact ⟨by rw [jsTrim_idem]; exact hn, n, hn1, hfl⟩
          · exact h it hit
  · intro u s h hint it hit
    cases hed : s.editing with
    | none =>
      rw [show (saveEdit u s).items = s.items by simp [saveEdit, hed]] at hit
      exact h it hit
    | some e =>
      by_cases hn : jsTrim (u.name.getD e.name) = ""
      · rw [show (saveEdit u s).items = s.items by simp [saveEdit, hed, hn]]
          at hit
        exact h it hit
      · by_cases hq : (!(u.quantity.getD e.quantity).isFinite
            || (u.quantity.getD e.quantity).le0) = true
        · rw [show (saveEdit u s).items = s.items by
            simp [saveEdit, hed, hn, hq]] at hit
          exact h it hit
        · have hfin : (u.quantity.getD e.quantity).isFinite = true := by
            cases hf : (u.quantity.getD e.quantity).isFinite
            · exact absurd (by simp [hf]) hq
            · rfl
          have hle : (u.quantity.getD e.quantity).le0 = false := by
            cases hl : (u.quantity.getD e.quantity).le0
            · rfl
            · exact absurd (by simp [hl]) hq
          obtain ⟨n, hn1, hfl⟩ := valid_quantity_floor hfin hle (hint e hed)
          have hitems : (saveEdit u s).items = s.items.map fun y =>
              if y.id = e.id then
                { y with name := jsTrim (u.name.getD e.name),
                         quantity := (u.quantity.getD e.quantity).jsFloor,
                         category := u.category.getD e.category }
              else y := by
            simp [saveEdit, hed, hn, hq]
          rw [hitems] at hit
          obtain ⟨y, hy, rfl⟩ := List.mem_map.mp hit
          by_cases hid : y.id = e.id
          · rw [if_pos hid]
            exact ⟨by rw [jsTrim_idem]; exact hn, n, hn1, hfl⟩
          · rw [if_neg hid]
            exact h y hy

/-- Witness for C2 (amended): the item produced by a concrete valid Add
with integral quantity satisfies the invariant. -/
theorem operations_preserve_invariant_witness :
    Item.wfNQ ⟨"i1", "Milk", .finite 2, "dairy", false, 5⟩ := by
  have h := operations_preserve_invariant.2.2.1 "i1" 5
    ⟨[], none, " Milk ", .finite 2, "dairy", none⟩
    (fun it hit => absurd hit (List.not_mem_nil it))
    (fun q hq => ⟨2, by injection hq with h'; rw [← h']; norm_num⟩)
  exact h ⟨"i1", "Milk", .finite 2, "dairy", false, 5⟩ (by decide)

/-! ## C8: loading a malformed stored value -/

/-- C8 counterexample: the stored text `"5"` is valid JSON, so `JSON.parse`
does not throw; it does not deserialize to a well-formed array of items,
yet the load effect installs it as-is with no error — neither an empty
collection nor an error message, contradicting the claim. -/
theorem load_malformed_counterexample :
    storedMalformed (.parsed (.num 5)) ∧
    (loadEffect (.parsed (.num 5))).error = none ∧
    (loadEffect (.parsed (.num 5))).installed = Json.num 5 ∧
    Json.num 5 ≠ Json.arr [] :=
  ⟨rfl, rfl, rfl, fun h => Json.noConfusion h⟩

/-- C8 as amended: an absent key yields the empty collection and no error;
a stored string `JSON.parse` throws on yields the empty collection and the
load error message, with no exception propagating; but any stored text
that parses to a JSON value — even one that is not a well-formed array of
item records — is installed as the collection unvalidated, with no error. -/
theorem loadEffect_amended :
    loadEffect .absent = ⟨Json.arr [], none⟩ ∧
    (∀ raw : String,
      loadEffect (.unparseable raw) = ⟨Json.arr [], some loadErrorMsg⟩) ∧
    (∀ j : Json, loadEffect (.parsed j) = ⟨j, none⟩) :=
  ⟨rfl, fun _ => rfl, fun _ => rfl⟩

/-! ## C9: persist / load round-trip -/

theorem decodeItem_encodeItem (it : Item) (q : ℚ)
    (hq : it.quantity = .finite q) :
    decodeItem (encodeItem it) = some it := by
  obtain ⟨id, name, qty, cat, comp, cr⟩ := it
  simp only at hq
  subst hq
  simp [decodeItem, encodeItem, encodeJSNum, getField, List.find?, asStr,
    asNum, asBool, asInt, Rat.den_intCast, Rat.num_intCast]

/-- C9: serializing a collection of well-formed items (as the persist
effect does) and then reading the result back as an array of item records
(as a load of that value yields) gives a collection element-wise equal to
the original. -/
theorem persist_load_roundtrip (items : List Item)
    (h : ∀ it ∈ items, it.wf) :
    decodeItems (encodeItems items) = some items := by
  induction items with
  | nil => rfl
  | cons x xs ih =>
    obtain ⟨⟨-, n, -, hq⟩, -⟩ := h x (List.mem_cons_self x xs)
    have hx := decodeItem_encodeItem x _ hq
    have hxs : (xs.map encodeItem).mapM decodeItem = some xs :=
      ih fun it hit => h it (List.mem_cons_of_mem x hit)
    show (encodeItem x :: xs.map encodeItem).mapM decodeItem = some (x :: xs)
    rw [List.mapM_cons, hx, hxs]
    rfl

/-- Witness for C9: round-trip on a concrete two-item collection. -/
theorem persist_load_roundtrip_witness :
    decodeItems (encodeItems
        [⟨"a", "Milk", .finite 2, "dairy", false, 100⟩,
         ⟨"b", "Eggs", .finite 12, "dairy", true, 101⟩])
      = some [⟨"a", "Milk", .finite 2, "dairy", false, 100⟩,
              ⟨"b", "Eggs", .finite 12, "dairy", true, 101⟩] :=
  persist_load_roundtrip _ (fun it hit => by
    rcases List.mem_cons.mp hit with h | h
    · subst h
      exact ⟨⟨by decide, 2, by omega, by norm_num⟩, by decide⟩
    · rcases List.mem_cons.mp h with h' | h'
      · subst h'
        exact ⟨⟨by decide, 12, by omega, by norm_num⟩, by decide⟩
      · exact absurd h' (List.not_mem_nil it))
